import Mathlib

/-
Verification of the Montgomery arithmetic engine for the 128-bit prime
p = 2^128 - 2^108 + 1 found in the longfellow-zk exploration scripts.

The Python sources under scrutiny:
  * fixed_redc.py / correct_montgomery_ref.py / redc_debug.py : limb-level REDC with a
    64-bit masked carry add into t[i+2] (two 64-bit reduction rounds over 4 limbs);
  * textbook_redc.py : digit-level REDC whose carry-propagation loop walks the
    remaining higher digits;
  * verify_mont_math.py : whole-integer montgomery_reduce (arbitrary precision,
    final shift by 128);
  * compute_montgomery_constants.py / reference_montgomery.py : derivation of the
    Montgomery constants, in particular the inv parameter;
  * check_omega.py / precompute_roots.py : the primitive 2^32-th root of unity and
    the power-of-two root table.

All machine arithmetic is embedded over Nat with explicit % 2^64 masks exactly where
the sources mask.
-/

/-- The field modulus, p = (1 << 128) - (1 << 108) + 1, as in every script. -/
def p : ℕ := 2^128 - 2^108 + 1

/-- The Montgomery constant R = 2^128 mod p (test_montgomery.py line 12). -/
def R : ℕ := 2^128 % p

/-- R squared mod p (test_montgomery.py line 20: R2 = (R * R) % p). -/
def R2 : ℕ := R * R % p

/-- INV = 0xFFFFFFFFFFFFFFFF, the inv constant used by the REDC engine
(verify_mont_math.py line 3). -/
def INV : ℕ := 2^64 - 1

/-- Fuel-driven modular exponentiation by repeated squaring; `powMod` below models
Python's three-argument pow(a, b, m). The fuel only bounds the recursion depth,
which is at most the bit length of b. -/
def powModF (m : ℕ) : ℕ → ℕ → ℕ → ℕ
  | 0, _, _ => 1 % m
  | fuel + 1, a, b =>
    if b = 0 then 1 % m
    else
      let h := powModF m fuel (a * a % m) (b / 2)
      if b % 2 = 1 then h * a % m else h

/-- Model of Python's pow(a, b, m): fast modular exponentiation. -/
def powMod (a b m : ℕ) : ℕ := powModF m b a b

/-- Fuel-driven extended Euclid, mirroring extended_gcd of
compute_montgomery_constants.py lines 5-11: extended_gcd(0, b) = (b, 0, 1) and
extended_gcd(a, b) recurses on (b mod a, a). The fuel only bounds recursion depth. -/
def egcdF : ℕ → ℕ → ℕ → ℕ × ℤ × ℤ
  | 0, _, b => (b, 0, 1)
  | fuel + 1, a, b =>
    if a = 0 then (b, 0, 1)
    else
      let r := egcdF fuel (b % a) a
      (r.1, r.2.2 - (b / a : ℕ) * r.2.1, r.2.1)

/-- extended_gcd from compute_montgomery_constants.py (the fuel a+1 dominates the
recursion depth, since the first argument strictly decreases). -/
def extended_gcd (a b : ℕ) : ℕ × ℤ × ℤ := egcdF (a + 1) a b

/-- mod_inverse from compute_montgomery_constants.py lines 13-17: None when the gcd
is not 1, otherwise the Bezout coefficient reduced into [0, m). Python's x % m on a
possibly negative x is Int.emod against a positive modulus. -/
def mod_inverse (a m : ℕ) : Option ℕ :=
  let r := extended_gcd a m
  if r.1 ≠ 1 then none else some ((r.2.1 % (m : ℤ)).toNat)

/-- Python's (-p) % (1 << 64): the least nonnegative residue of -p modulo 2^64. -/
def neg_p_mod : ℕ := ((-(p : ℤ)) % (2^64 : ℤ)).toNat

/-- inv_p = mod_inverse((-p) % (1 << 64), 1 << 64) from
compute_montgomery_constants.py line 37. -/
def inv_p : Option ℕ := mod_inverse neg_p_mod (2^64)

/-- Model of Python's builtin pow(x, -1, m) (the modular inverse, None-free in
Python but partiality surfaces as an exception): the same mathematical function as
mod_inverse, the extended-Euclid modular inverse. Used by fixed_redc.py line 79,
correct_montgomery_ref.py line 79, textbook_redc.py line 91 and redc_debug.py
line 83, all applied to (-p) % 2^64. -/
def redc_script_inv : Option ℕ := mod_inverse neg_p_mod (2^64)

/-- reference_montgomery.py line 76: inv = pow(p, -1, 1 << 64) — the inverse of +p,
not of -p. -/
def reference_inv : Option ℕ := mod_inverse p (2^64)

/-- One reduction round of fixed_redc.py (lines 30-61) acting on the three limbs at
positions i, i+1, i+2: m = t[i]*inv mod 2^64; for j in {0,1} add the split product
m*p[j] into t[i+j] tracking the carry (prod_hi plus add overflow); finally add the
round carry into t[i+2] under a 64-bit mask. Returns the three updated limbs. -/
def redcRound (inv p0 p1 ti tj tk : ℕ) : ℕ × ℕ × ℕ :=
  let m := ti * inv % 2^64
  let prod0 := m * p0
  let sum0 := ti + prod0 % 2^64 + 0
  let ti' := sum0 % 2^64
  let c0 := sum0 / 2^64 + prod0 / 2^64
  let prod1 := m * p1
  let sum1 := tj + prod1 % 2^64 + c0
  let tj' := sum1 % 2^64
  let c1 := sum1 / 2^64 + prod1 / 2^64
  let tk' := (tk + c1) % 2^64
  (ti', tj', tk')

/-- The carry produced by the j-loop of one fixed_redc.py round (the value the
source then adds into t[i+2]). -/
def roundCarry (inv p0 p1 ti tj : ℕ) : ℕ :=
  let m := ti * inv % 2^64
  let prod0 := m * p0
  let sum0 := ti + prod0 % 2^64 + 0
  let c0 := sum0 / 2^64 + prod0 / 2^64
  let prod1 := m * p1
  let sum1 := tj + prod1 % 2^64 + c0
  sum1 / 2^64 + prod1 / 2^64

/-- fixed_redc from fixed_redc.py lines 5-74: split t into four 64-bit limbs and p
into two, run two reduction rounds (round i reads limb i, i+1, i+2; round 1 reads
the limbs updated by round 0 and the original t[3]), take the upper two limbs as
the result and conditionally subtract p once. -/
def fixed_redc (t pp inv : ℕ) : ℕ :=
  let t0 := t % 2^64
  let t1 := t / 2^64 % 2^64
  let t2 := t / 2^128 % 2^64
  let t3 := t / 2^192 % 2^64
  let p0 := pp % 2^64
  let p1 := pp / 2^64 % 2^64
  let r0 := redcRound inv p0 p1 t0 t1 t2
  let r1 := redcRound inv p0 p1 r0.2.1 r0.2.2 t3
  let result := r1.2.1 + r1.2.2 * 2^64
  if result ≥ pp then result - pp else result

/-- montgomery_mult from correct_montgomery_ref.py lines 5-74: the full product
t = a*b followed by the same two masked reduction rounds, upper-limb extraction
and conditional subtraction as fixed_redc (the r parameter is accepted and unused,
as in the source). -/
def montgomery_mult (a b pp r inv : ℕ) : ℕ :=
  let t := a * b
  let t0 := t % 2^64
  let t1 := t / 2^64 % 2^64
  let t2 := t / 2^128 % 2^64
  let t3 := t / 2^192 % 2^64
  let p0 := pp % 2^64
  let p1 := pp / 2^64 % 2^64
  let r0 := redcRound inv p0 p1 t0 t1 t2
  let r1 := redcRound inv p0 p1 r0.2.1 r0.2.2 t3
  let result := r1.2.1 + r1.2.2 * 2^64
  if result ≥ pp then result - pp else result

/-- montgomery_reduce from verify_mont_math.py lines 34-55, on exact integers:
two rounds of m_i = (result >> 64i mod 2^64) * inv mod 2^64 followed by
result += m_i * p * 2^(64 i), then a shift down by 128 bits and one conditional
subtraction. -/
def montgomery_reduce (T pp inv : ℕ) : ℕ :=
  let m0 := (T % 2^64) * inv % 2^64
  let r1 := T + m0 * pp
  let m1 := (r1 / 2^64 % 2^64) * inv % 2^64
  let r2 := r1 + m1 * pp * 2^64
  let res := r2 / 2^128
  if res ≥ pp then res - pp else res

/-- The pre-subtraction value of montgomery_reduce: the exact
(T + m0*p + m1*2^64*p) / 2^128 of verify_mont_math.py line 49, before the final
conditional subtraction. -/
def mr_pre (T pp inv : ℕ) : ℕ :=
  let m0 := (T % 2^64) * inv % 2^64
  let r1 := T + m0 * pp
  let m1 := (r1 / 2^64 % 2^64) * inv % 2^64
  let r2 := r1 + m1 * pp * 2^64
  r2 / 2^128

/-- The masked add of fixed_redc round i=0 into t[2] discards a carry: the limb
t[2] plus the incoming round carry reaches 2^64. -/
def round0_overflow (t : ℕ) : Prop :=
  2^64 ≤ t / 2^128 % 2^64
    + roundCarry INV (p % 2^64) (p / 2^64 % 2^64) (t % 2^64) (t / 2^64 % 2^64)

instance (t : ℕ) : Decidable (round0_overflow t) := Nat.decLe _ _

/-- The masked add of fixed_redc round i=1 into t[3] discards a carry: the limb
t[3] plus the incoming round carry reaches 2^64 (the situation analysed in
check_carry_overflow.py: "the carry_out=1 needs to go somewhere"). -/
def round1_overflow (t : ℕ) : Prop :=
  2^64 ≤ t / 2^192 % 2^64
    + roundCarry INV (p % 2^64) (p / 2^64 % 2^64)
        (redcRound INV (p % 2^64) (p / 2^64 % 2^64) (t % 2^64) (t / 2^64 % 2^64)
          (t / 2^128 % 2^64)).2.1
        (redcRound INV (p % 2^64) (p / 2^64 % 2^64) (t % 2^64) (t / 2^64 % 2^64)
          (t / 2^128 % 2^64)).2.2

instance (t : ℕ) : Decidable (round1_overflow t) := Nat.decLe _ _

/-- The j-loop of one textbook_redc.py round (lines 51-57) on the two digits at
positions i, i+1: m = T[i]*N' mod radix; sum = T[i+j] + m*N[j] + carry with the
whole product added at once; returns the two updated digits and the outgoing
carry. -/
def tbRound (Np N0 N1 x0 x1 : ℕ) : ℕ × ℕ × ℕ :=
  let m := x0 * Np % 2^64
  let s0 := x0 + m * N0 + 0
  let d0 := s0 % 2^64
  let c0 := s0 / 2^64
  let s1 := x1 + m * N1 + c0
  (d0, s1 % 2^64, s1 / 2^64)

/-- One step of the carry-propagation while loop of textbook_redc.py
(lines 63-68): digit := (digit + carry) mod radix, carry := quotient. -/
def tbProp (x c : ℕ) : ℕ × ℕ :=
  ((x + c) % 2^64, (x + c) / 2^64)

/-- textbook_redc from textbook_redc.py lines 5-86 with radix 2^64 and n = 2 as in
the source: round i=0 updates digits 0,1 then propagates its carry through digits
2 and 3 (the while loop runs while the carry is nonzero, which agrees with the
unconditional masked update since every digit stays below the radix); round i=1
updates digits 1,2 then propagates through digit 3; the result is digits 2,3
followed by one conditional subtraction. -/
def textbook_redc (T N Np : ℕ) : ℕ :=
  let T0 := T % 2^64
  let T1 := T / 2^64 % 2^64
  let T2 := T / 2^128 % 2^64
  let T3 := T / 2^192 % 2^64
  let N0 := N % 2^64
  let N1 := N / 2^64 % 2^64
  let r0 := tbRound Np N0 N1 T0 T1
  let pr0 := tbProp T2 r0.2.2
  let pr1 := tbProp T3 pr0.2
  let r1 := tbRound Np N0 N1 r0.2.1 pr0.1
  let pr2 := tbProp pr1.1 r1.2.2
  let result := r1.2.1 + pr2.1 * 2^64
  if result ≥ N then result - N else result

/-- from_canonical of spec section 4.3, realised through the source
montgomery_reduce: REDC of the plain product x * R2. -/
def from_canonical (x : ℕ) : ℕ := montgomery_reduce (x * R2) p INV

/-- to_canonical of spec section 4.3, realised through the source
montgomery_reduce: REDC of the element itself (implicit multiplier 1). -/
def to_canonical (e : ℕ) : ℕ := montgomery_reduce e p INV

/-- The Montgomery form of p - 1, (p-1)*R mod p, the operand of the
(-1) * (-1) test of fixed_redc.py lines 81-84. -/
def minus_one_mont : ℕ := (p - 1) * R % p

/-- The base primitive 2^32-th root of unity used by the scripts
(precompute_roots.py line 6, check_omega.py line 11). -/
def cpp_omega_32 : ℕ := 164956748514267535023998284330560247862

/-- Fuel-driven floor of log2, agreeing with Python's n.bit_length() - 1 for
n >= 1 (precompute_roots.py line 16 computes log_n this way). -/
def log2F : ℕ → ℕ → ℕ
  | 0, _ => 0
  | fuel + 1, n => if n ≤ 1 then 0 else log2F fuel (n / 2) + 1

/-- log_n = n.bit_length() - 1 for the power-of-two sizes of
precompute_roots.py. -/
def log_n (n : ℕ) : ℕ := log2F n n

/-- The sizes list of precompute_roots.py line 11. -/
def sizes : List ℕ :=
  [2, 4, 8, 16, 32, 64, 128, 256, 512, 1024, 2048, 4096, 8192, 16384, 32768, 65536]

/-- omega_n = pow(cpp_omega_32, 2^(32 - log_n), p) from precompute_roots.py
lines 16-18. -/
def omega_n (n : ℕ) : ℕ := powMod cpp_omega_32 (2^(32 - log_n n)) p

/-- The generated lookup table of precompute_roots.py lines 49-56: Some of the
precomputed root for the sixteen listed sizes, None for every other n. -/
def root_for (n : ℕ) : Option ℕ :=
  if n ∈ sizes then some (omega_n n) else none

/-- powModF computes modular exponentiation once the fuel covers the recursion
depth. -/
theorem powModF_eq (m : ℕ) :
    ∀ fuel a b, b ≤ fuel → powModF m fuel a b = a ^ b % m := by
  intro fuel
  induction fuel with
  | zero => intro a b hb; interval_cases b; simp [powModF]
  | succ f ih =>
    intro a b hb
    rw [powModF]
    by_cases hb0 : b = 0
    · simp [hb0]
    · simp only [if_neg hb0]
      have hdiv : b / 2 ≤ f := by omega
      rw [ih (a * a % m) (b / 2) hdiv]
      have h2 : (a * a % m) ^ (b / 2) % m = (a ^ 2) ^ (b / 2) % m := by
        conv_rhs => rw [Nat.pow_mod]
        rw [pow_two]
      rw [h2, ← pow_mul]
      by_cases hpar : b % 2 = 1
      · simp only [if_pos hpar]
        rw [Nat.mod_mul_mod, ← pow_succ]
        have hb2 : 2 * (b / 2) + 1 = b := by omega
        rw [hb2]
      · simp only [if_neg hpar]
        have hb2 : 2 * (b / 2) = b := by omega
        rw [hb2]

/-- powMod agrees with mathematical exponentiation followed by reduction. -/
theorem powMod_eq (a b m : ℕ) : powMod a b m = a ^ b % m :=
  powModF_eq m b a b le_rfl

/-- A reduction round whose first output limb is zero turns its division identity
into an exact value identity. -/
theorem stepValue (W Rv S : ℕ) (hdiv : Rv + S * 2^64 = W / 2^64) (hz : W % 2^64 = 0) :
    W = Rv * 2^64 + S * 2^128 := by omega

/-- Any value below p * 2^128 splits exactly into its four 64-bit limbs. -/
theorem limbs4 (t : ℕ) (h : t < (2^128 - 2^108 + 1) * 2^128) :
    t = t % 2^64 + t / 2^64 % 2^64 * 2^64 + t / 2^128 % 2^64 * 2^128
      + t / 2^192 % 2^64 * 2^192 := by omega

set_option maxHeartbeats 1000000 in
/-- The whole-integer montgomery_reduce is a correct Montgomery reduction on its
whole domain T < p * 2^128: the result is reduced and satisfies
result * 2^128 = T modulo p. -/
theorem mr_spec (T : ℕ) (h : T < p * 2^128) :
    montgomery_reduce T p INV < p ∧ montgomery_reduce T p INV * 2^128 % p = T % p := by
  simp only [montgomery_reduce, p, INV] at h ⊢
  split_ifs with h1 <;> omega

set_option maxHeartbeats 1000000 in
/-- The exact pre-subtraction REDC value is below 2p whenever the input is below
p * 2^128. -/
theorem mr_pre_lt (T : ℕ) (h : T < p * 2^128) : mr_pre T p INV < 2 * p := by
  simp only [mr_pre, p, INV] at h ⊢
  omega

set_option maxHeartbeats 1000000 in
/-- Conservation law of one fixed_redc round at the limbs of p: the targeted limb
becomes zero, the unmasked value of the three limbs equals the incoming value plus
m * p, the middle limb and the carry stay below 2^64, the top limb is the masked
sum, and the value is divisible by 2^64. -/
theorem redcRound_conserve (ti tj tk : ℕ) (hti : ti < 2^64) (htj : tj < 2^64) :
    (redcRound INV (p % 2^64) (p / 2^64 % 2^64) ti tj tk).1 = 0 ∧
    (redcRound INV (p % 2^64) (p / 2^64 % 2^64) ti tj tk).2.1
      + (tk + roundCarry INV (p % 2^64) (p / 2^64 % 2^64) ti tj) * 2^64
      = (ti + tj * 2^64 + tk * 2^128 + (ti * INV % 2^64) * p) / 2^64 ∧
    (redcRound INV (p % 2^64) (p / 2^64 % 2^64) ti tj tk).2.1 < 2^64 ∧
    (redcRound INV (p % 2^64) (p / 2^64 % 2^64) ti tj tk).2.2
      = (tk + roundCarry INV (p % 2^64) (p / 2^64 % 2^64) ti tj) % 2^64 ∧
    roundCarry INV (p % 2^64) (p / 2^64 % 2^64) ti tj < 2^64 ∧
    (ti + tj * 2^64 + tk * 2^128 + (ti * INV % 2^64) * p) % 2^64 = 0 := by
  refine ⟨?_, ?_, ?_, ?_, ?_, ?_⟩ <;> simp only [redcRound, roundCarry, INV, p] <;> omega

set_option maxHeartbeats 4000000 in
/-- fixed_redc agrees with the exact montgomery_reduce whenever no carry is
dropped: the pre-subtraction value fits in 128 bits and the round-0 masked add
into t[2] does not overflow. -/
theorem fixed_eq_mr (t : ℕ) (h : t < p * 2^128)
    (hpre : mr_pre t p INV < 2^128) (hovf : ¬ round0_overflow t) :
    fixed_redc t p INV = montgomery_reduce t p INV := by
  have C0 := redcRound_conserve (t % 2^64) (t / 2^64 % 2^64) (t / 2^128 % 2^64)
    (Nat.mod_lt _ (by norm_num)) (Nat.mod_lt _ (by norm_num))
  have C1 := redcRound_conserve
    (redcRound INV (p % 2^64) (p / 2^64 % 2^64) (t % 2^64) (t / 2^64 % 2^64)
      (t / 2^128 % 2^64)).2.1
    (redcRound INV (p % 2^64) (p / 2^64 % 2^64) (t % 2^64) (t / 2^64 % 2^64)
      (t / 2^128 % 2^64)).2.2
    (t / 2^192 % 2^64)
    C0.2.2.1
    (by rw [C0.2.2.2.1]; exact Nat.mod_lt _ (by norm_num))
  simp only [round0_overflow] at hovf
  simp only [mr_pre] at hpre
  simp only [fixed_redc, montgomery_reduce] at h ⊢
  generalize hR11 : (redcRound INV (p % 2^64) (p / 2^64 % 2^64)
      (redcRound INV (p % 2^64) (p / 2^64 % 2^64) (t % 2^64) (t / 2^64 % 2^64)
        (t / 2^128 % 2^64)).2.1
      (redcRound INV (p % 2^64) (p / 2^64 % 2^64) (t % 2^64) (t / 2^64 % 2^64)
        (t / 2^128 % 2^64)).2.2
      (t / 2^192 % 2^64)).2.1 = R11 at C1 ⊢
  generalize hR12 : (redcRound INV (p % 2^64) (p / 2^64 % 2^64)
      (redcRound INV (p % 2^64) (p / 2^64 % 2^64) (t % 2^64) (t / 2^64 % 2^64)
        (t / 2^128 % 2^64)).2.1
      (redcRound INV (p % 2^64) (p / 2^64 % 2^64) (t % 2^64) (t / 2^64 % 2^64)
        (t / 2^128 % 2^64)).2.2
      (t / 2^192 % 2^64)).2.2 = R12 at C1 ⊢
  generalize hc1 : roundCarry INV (p % 2^64) (p / 2^64 % 2^64)
      (redcRound INV (p % 2^64) (p / 2^64 % 2^64) (t % 2^64) (t / 2^64 % 2^64)
        (t / 2^128 % 2^64)).2.1
      (redcRound INV (p % 2^64) (p / 2^64 % 2^64) (t % 2^64) (t / 2^64 % 2^64)
        (t / 2^128 % 2^64)).2.2 = c1 at C1
  generalize hR01 : (redcRound INV (p % 2^64) (p / 2^64 % 2^64) (t % 2^64) (t / 2^64 % 2^64)
      (t / 2^128 % 2^64)).2.1 = R01 at C0 C1
  generalize hR02 : (redcRound INV (p % 2^64) (p / 2^64 % 2^64) (t % 2^64) (t / 2^64 % 2^64)
      (t / 2^128 % 2^64)).2.2 = R02 at C0 C1
  generalize hc0 : roundCarry INV (p % 2^64) (p / 2^64 % 2^64) (t % 2^64)
      (t / 2^64 % 2^64) = c0 at C0 hovf
  simp only [INV, p] at C0 C1 hovf hpre h ⊢
  clear hR11 hR12 hc1 hR01 hR02 hc0
  obtain ⟨-, hdiv0, hlt01, hmask0, hcb0, hz0⟩ := C0
  obtain ⟨-, hdiv1, hlt11, hmask1, hcb1, hz1⟩ := C1
  have hLimbs := limbs4 t h
  have hW0 := stepValue _ _ _ hdiv0 hz0
  have hV0 : t + t % 2^64 * (2^64 - 1) % 2^64 * (2^128 - 2^108 + 1)
      = R01 * 2^64 + R02 * 2^128 + t / 2^192 % 2^64 * 2^192 := by
    clear hdiv0 hz0 hdiv1 hlt11 hmask1 hcb1 hz1 hpre h
    omega
  have hM1 : (t + t % 2^64 * (2^64 - 1) % 2^64 * (2^128 - 2^108 + 1)) / 2^64 % 2^64
      = R01 := by
    clear hdiv0 hz0 hdiv1 hlt11 hmask1 hcb1 hz1 hpre h hovf hLimbs hW0
    omega
  rw [hM1] at hpre ⊢
  have hW1 := stepValue _ _ _ hdiv1 hz1
  have hV1 : (t + t % 2^64 * (2^64 - 1) % 2^64 * (2^128 - 2^108 + 1)
        + R01 * (2^64 - 1) % 2^64 * (2^128 - 2^108 + 1) * 2^64) / 2^128
      = R11 + (t / 2^192 % 2^64 + c1) * 2^64 := by
    clear hdiv0 hz0 hdiv1 hz1 hpre h hovf hLimbs hW0 hmask0 hmask1
    omega
  rw [hV1] at hpre ⊢
  have hR12e : R12 = t / 2^192 % 2^64 + c1 := by
    clear hdiv0 hz0 hdiv1 hz1 h hovf hLimbs hW0 hW1 hmask0 hV0 hV1 hM1
    omega
  rw [hR12e]

set_option maxHeartbeats 1000000 in
/-- Conservation law of one textbook_redc j-loop at the digits of p: the targeted
digit becomes zero, the unmasked value of the two digits plus the outgoing carry
equals the incoming value plus m * p, and everything needed stays below 2^64. -/
theorem tbRound_conserve (x0 x1 : ℕ) (hx0 : x0 < 2^64) (hx1 : x1 < 2^64) :
    (tbRound INV (p % 2^64) (p / 2^64 % 2^64) x0 x1).1 = 0 ∧
    (tbRound INV (p % 2^64) (p / 2^64 % 2^64) x0 x1).2.1
      + (tbRound INV (p % 2^64) (p / 2^64 % 2^64) x0 x1).2.2 * 2^64
      = (x0 + x1 * 2^64 + (x0 * INV % 2^64) * p) / 2^64 ∧
    (x0 + x1 * 2^64 + (x0 * INV % 2^64) * p) % 2^64 = 0 ∧
    (tbRound INV (p % 2^64) (p / 2^64 % 2^64) x0 x1).2.1 < 2^64 ∧
    (tbRound INV (p % 2^64) (p / 2^64 % 2^64) x0 x1).2.2 < 2^64 := by
  refine ⟨?_, ?_, ?_, ?_, ?_⟩ <;> simp only [tbRound, INV, p] <;> omega

/-- One carry-propagation step preserves the represented value and keeps its digit
below 2^64. -/
theorem tbProp_conserve (x c : ℕ) :
    (tbProp x c).1 + (tbProp x c).2 * 2^64 = x + c ∧ (tbProp x c).1 < 2^64 := by
  constructor <;> simp only [tbProp] <;> omega

set_option maxHeartbeats 4000000 in
/-- textbook_redc agrees with the exact montgomery_reduce whenever the
pre-subtraction value fits in 128 bits (its round-0 carry, unlike fixed_redc's, is
propagated through the top digit and never lost for inputs below p * 2^128). -/
theorem textbook_eq_mr (t : ℕ) (h : t < p * 2^128)
    (hpre : mr_pre t p INV < 2^128) :
    textbook_redc t p INV = montgomery_reduce t p INV := by
  have C0 := tbRound_conserve (t % 2^64) (t / 2^64 % 2^64)
    (Nat.mod_lt _ (by norm_num)) (Nat.mod_lt _ (by norm_num))
  have P2 := tbProp_conserve (t / 2^128 % 2^64)
    (tbRound INV (p % 2^64) (p / 2^64 % 2^64) (t % 2^64) (t / 2^64 % 2^64)).2.2
  have P3 := tbProp_conserve (t / 2^192 % 2^64)
    (tbProp (t / 2^128 % 2^64)
      (tbRound INV (p % 2^64) (p / 2^64 % 2^64) (t % 2^64) (t / 2^64 % 2^64)).2.2).2
  have C1 := tbRound_conserve
    (tbRound INV (p % 2^64) (p / 2^64 % 2^64) (t % 2^64) (t / 2^64 % 2^64)).2.1
    (tbProp (t / 2^128 % 2^64)
      (tbRound INV (p % 2^64) (p / 2^64 % 2^64) (t % 2^64) (t / 2^64 % 2^64)).2.2).1
    C0.2.2.2.1 P2.2
  have P4 := tbProp_conserve
    (tbProp (t / 2^192 % 2^64)
      (tbProp (t / 2^128 % 2^64)
        (tbRound INV (p % 2^64) (p / 2^64 % 2^64) (t % 2^64) (t / 2^64 % 2^64)).2.2).2).1
    (tbRound INV (p % 2^64) (p / 2^64 % 2^64)
      (tbRound INV (p % 2^64) (p / 2^64 % 2^64) (t % 2^64) (t / 2^64 % 2^64)).2.1
      (tbProp (t / 2^128 % 2^64)
        (tbRound INV (p % 2^64) (p / 2^64 % 2^64) (t % 2^64) (t / 2^64 % 2^64)).2.2).1).2.2
  simp only [mr_pre] at hpre
  simp only [textbook_redc, montgomery_reduce] at h ⊢
  generalize hB3 : (tbProp
      (tbProp (t / 2^192 % 2^64)
        (tbProp (t / 2^128 % 2^64)
          (tbRound INV (p % 2^64) (p / 2^64 % 2^64) (t % 2^64) (t / 2^64 % 2^64)).2.2).2).1
      (tbRound INV (p % 2^64) (p / 2^64 % 2^64)
        (tbRound INV (p % 2^64) (p / 2^64 % 2^64) (t % 2^64) (t / 2^64 % 2^64)).2.1
        (tbProp (t / 2^128 % 2^64)
          (tbRound INV (p % 2^64) (p / 2^64 % 2^64) (t % 2^64)
            (t / 2^64 % 2^64)).2.2).1).2.2).1 = B3 at P4 ⊢
  generalize hL : (tbProp
      (tbProp (t / 2^192 % 2^64)
        (tbProp (t / 2^128 % 2^64)
          (tbRound INV (p % 2^64) (p / 2^64 % 2^64) (t % 2^64) (t / 2^64 % 2^64)).2.2).2).1
      (tbRound INV (p % 2^64) (p / 2^64 % 2^64)
        (tbRound INV (p % 2^64) (p / 2^64 % 2^64) (t % 2^64) (t / 2^64 % 2^64)).2.1
        (tbProp (t / 2^128 % 2^64)
          (tbRound INV (p % 2^64) (p / 2^64 % 2^64) (t % 2^64)
            (t / 2^64 % 2^64)).2.2).1).2.2).2 = L1 at P4
  generalize hB2 : (tbRound INV (p % 2^64) (p / 2^64 % 2^64)
      (tbRound INV (p % 2^64) (p / 2^64 % 2^64) (t % 2^64) (t / 2^64 % 2^64)).2.1
      (tbProp (t / 2^128 % 2^64)
        (tbRound INV (p % 2^64) (p / 2^64 % 2^64) (t % 2^64)
          (t / 2^64 % 2^64)).2.2).1).2.1 = B2 at C1 ⊢
  generalize hBc : (tbRound INV (p % 2^64) (p / 2^64 % 2^64)
      (tbRound INV (p % 2^64) (p / 2^64 % 2^64) (t % 2^64) (t / 2^64 % 2^64)).2.1
      (tbProp (t / 2^128 % 2^64)
        (tbRound INV (p % 2^64) (p / 2^64 % 2^64) (t % 2^64)
          (t / 2^64 % 2^64)).2.2).1).2.2 = Bc at C1 P4
  generalize hA3 : (tbProp (t / 2^192 % 2^64)
      (tbProp (t / 2^128 % 2^64)
        (tbRound INV (p % 2^64) (p / 2^64 % 2^64) (t % 2^64)
          (t / 2^64 % 2^64)).2.2).2).1 = A3 at P3 P4
  generalize hA3c : (tbProp (t / 2^192 % 2^64)
      (tbProp (t / 2^128 % 2^64)
        (tbRound INV (p % 2^64) (p / 2^64 % 2^64) (t % 2^64)
          (t / 2^64 % 2^64)).2.2).2).2 = A3c at P3
  generalize hA2 : (tbProp (t / 2^128 % 2^64)
      (tbRound INV (p % 2^64) (p / 2^64 % 2^64) (t % 2^64)
        (t / 2^64 % 2^64)).2.2).1 = A2 at P2 C1
  generalize hA2c : (tbProp (t / 2^128 % 2^64)
      (tbRound INV (p % 2^64) (p / 2^64 % 2^64) (t % 2^64)
        (t / 2^64 % 2^64)).2.2).2 = A2c at P2 P3
  generalize hA1 : (tbRound INV (p % 2^64) (p / 2^64 % 2^64) (t % 2^64)
      (t / 2^64 % 2^64)).2.1 = A1 at C0 C1
  generalize hAc : (tbRound INV (p % 2^64) (p / 2^64 % 2^64) (t % 2^64)
      (t / 2^64 % 2^64)).2.2 = Ac at C0 P2
  simp only [INV, p] at C0 C1 hpre h ⊢
  clear hB3 hL hB2 hBc hA3 hA3c hA2 hA2c hA1 hAc
  obtain ⟨-, hdiv0, hz0, hlt1, hltc⟩ := C0
  obtain ⟨-, hdiv1, hz1, hltB2, hltBc⟩ := C1
  obtain ⟨hP2v, hP2l⟩ := P2
  obtain ⟨hP3v, hP3l⟩ := P3
  obtain ⟨hP4v, hP4l⟩ := P4
  have hLimbs := limbs4 t h
  have hW0 := stepValue _ _ _ hdiv0 hz0
  have hV0 : t + t % 2^64 * (2^64 - 1) % 2^64 * (2^128 - 2^108 + 1)
      = A1 * 2^64 + A2 * 2^128 + A3 * 2^192 + A3c * 2^256 := by
    clear hdiv0 hz0 hdiv1 hz1 hpre h
    omega
  have hA3c0 : A3c = 0 := by
    clear hdiv0 hz0 hdiv1 hz1 hpre hLimbs hW0 hP2v hP3v hP4v
    omega
  rw [hA3c0] at hV0
  have hM1 : (t + t % 2^64 * (2^64 - 1) % 2^64 * (2^128 - 2^108 + 1)) / 2^64 % 2^64
      = A1 := by
    clear hdiv0 hz0 hdiv1 hz1 hpre h hLimbs hW0 hP2v hP3v hP4v
    omega
  rw [hM1] at hpre ⊢
  have hW1 := stepValue _ _ _ hdiv1 hz1
  have hInner : t + t % 2^64 * (2^64 - 1) % 2^64 * (2^128 - 2^108 + 1)
      + A1 * (2^64 - 1) % 2^64 * (2^128 - 2^108 + 1) * 2^64
      = (B2 + (A3 + Bc) * 2^64) * 2^128 := by
    clear hdiv0 hz0 hdiv1 hz1 hpre h hLimbs hW0 hP2v hP3v hP4v hM1
    omega
  have hV1 : (t + t % 2^64 * (2^64 - 1) % 2^64 * (2^128 - 2^108 + 1)
        + A1 * (2^64 - 1) % 2^64 * (2^128 - 2^108 + 1) * 2^64) / 2^128
      = B2 + (A3 + Bc) * 2^64 := by
    rw [hInner]
    omega
  rw [hV1] at hpre ⊢
  have hB3e : B3 = A3 + Bc := by
    clear hdiv0 hz0 hdiv1 hz1 h hLimbs hW0 hW1 hV0 hInner hV1 hM1 hP2v hP3v
    omega
  rw [hB3e]

/-- C1: the claim fails on the code: at a = b = minus_one_mont (the Montgomery
form of p-1, a well-formed operand < p), montgomery_mult returns 0, although the
Montgomery product (a*b*R^{-1}) mod p equals 2^108 - 1, the Montgomery form of 1:
the limb implementation drops the final reduction carry. The third conjunct
certifies that 340281717884140631619742386188451840000 is R^{-1} = (2^128)^{-1}
mod p, so the fourth conjunct is the claimed correct result. -/
theorem C1_montgomery_mult_wrong_at_minus_one :
    minus_one_mont < p ∧
    montgomery_mult minus_one_mont minus_one_mont p R INV = 0 ∧
    2^128 * 340281717884140631619742386188451840000 % p = 1 ∧
    minus_one_mont * minus_one_mont * 340281717884140631619742386188451840000 % p
      = 2^108 - 1 := by decide

/-- C2: the claim fails on the code: at t = minus_one_mont * minus_one_mont (a
product of two well-formed operands < p) the round i=1 carry added into t[3]
overflows 64 bits, the 64-bit mask discards a nonzero carry, and fixed_redc
consequently returns 0 where the exact montgomery_reduce returns 2^108 - 1. -/
theorem C2_round1_carry_overflows_at_minus_one :
    minus_one_mont < p ∧
    round1_overflow (minus_one_mont * minus_one_mont) ∧
    fixed_redc (minus_one_mont * minus_one_mont) p INV = 0 ∧
    montgomery_reduce (minus_one_mont * minus_one_mont) p INV = 2^108 - 1 := by decide

/-- C3: for every product t = a * b of operands a < p and b < p, each of the two
REDC reduction rounds of fixed_redc drives the limb it targets to exactly zero:
round 0 zeroes limb t[0] and round 1 zeroes the updated limb t[1]. -/
theorem C3_rounds_zero_targeted_limbs (a b : ℕ) (ha : a < p) (hb : b < p) :
    (redcRound INV (p % 2^64) (p / 2^64 % 2^64) (a * b % 2^64) (a * b / 2^64 % 2^64)
      (a * b / 2^128 % 2^64)).1 = 0 ∧
    (redcRound INV (p % 2^64) (p / 2^64 % 2^64)
      (redcRound INV (p % 2^64) (p / 2^64 % 2^64) (a * b % 2^64) (a * b / 2^64 % 2^64)
        (a * b / 2^128 % 2^64)).2.1
      (redcRound INV (p % 2^64) (p / 2^64 % 2^64) (a * b % 2^64) (a * b / 2^64 % 2^64)
        (a * b / 2^128 % 2^64)).2.2
      (a * b / 2^192 % 2^64)).1 = 0 := by
  have C0 := redcRound_conserve (a * b % 2^64) (a * b / 2^64 % 2^64)
    (a * b / 2^128 % 2^64) (Nat.mod_lt _ (by norm_num)) (Nat.mod_lt _ (by norm_num))
  exact ⟨C0.1, (redcRound_conserve _ _ (a * b / 2^192 % 2^64) C0.2.2.1
    (by rw [C0.2.2.2.1]; exact Nat.mod_lt _ (by norm_num))).1⟩

/-- Witness for C3 at a = 2, b = 3. -/
theorem C3_witness :
    2 < p ∧ 3 < p ∧
    ((redcRound INV (p % 2^64) (p / 2^64 % 2^64) (2 * 3 % 2^64) (2 * 3 / 2^64 % 2^64)
      (2 * 3 / 2^128 % 2^64)).1 = 0 ∧
    (redcRound INV (p % 2^64) (p / 2^64 % 2^64)
      (redcRound INV (p % 2^64) (p / 2^64 % 2^64) (2 * 3 % 2^64) (2 * 3 / 2^64 % 2^64)
        (2 * 3 / 2^128 % 2^64)).2.1
      (redcRound INV (p % 2^64) (p / 2^64 % 2^64) (2 * 3 % 2^64) (2 * 3 / 2^64 % 2^64)
        (2 * 3 / 2^128 % 2^64)).2.2
      (2 * 3 / 2^192 % 2^64)).1 = 0) :=
  ⟨by decide, by decide, C3_rounds_zero_targeted_limbs 2 3 (by decide) (by decide)⟩

/-- C4: for every pair of operands a < p and b < p, the exact pre-subtraction
REDC value (a*b + m0*p + m1*2^64*p) / 2^128 is strictly below 2p, and the
conditional subtraction therefore yields a value in [0, p). -/
theorem C4_pre_subtraction_below_2p (a b : ℕ) (ha : a < p) (hb : b < p) :
    mr_pre (a * b) p INV < 2 * p ∧ montgomery_reduce (a * b) p INV < p := by
  have hab : a * b < p * 2^128 := by
    have h1 : a * b < p * p := mul_lt_mul'' ha hb (Nat.zero_le a) (Nat.zero_le b)
    have h2 : p * p ≤ p * 2^128 := Nat.mul_le_mul_left p (by decide)
    omega
  exact ⟨mr_pre_lt _ hab, (mr_spec _ hab).1⟩

/-- Witness for C4 at a = 2, b = 3. -/
theorem C4_witness :
    2 < p ∧ 3 < p ∧
    (mr_pre (2 * 3) p INV < 2 * p ∧ montgomery_reduce (2 * 3) p INV < p) :=
  ⟨by decide, by decide, C4_pre_subtraction_below_2p 2 3 (by decide) (by decide)⟩

/-- C5: the claim fails as stated: reference_montgomery.py line 76 derives its
inv parameter as pow(p, -1, 2^64) = 1, which differs from
(-p)^{-1} mod 2^64 = 2^64 - 1 computed by the other derivation sites. -/
theorem C5_reference_derives_different_inv :
    reference_inv = some 1 ∧ inv_p = some (2^64 - 1) ∧ reference_inv ≠ inv_p := by
  decide

/-- C5 amended: the REDC constant INV equals (-p)^{-1} mod 2^64 = 2^64 - 1
(because p = 1 mod 2^64); the extended-Euclid derivation of
compute_montgomery_constants.py and the pow((-p) % 2^64, -1, 2^64) of
fixed_redc.py, correct_montgomery_ref.py, textbook_redc.py and redc_debug.py all
produce exactly this value, and it is indeed the inverse of (-p) mod 2^64; but
reference_montgomery.py alone derives pow(p, -1, 2^64) = 1 instead. -/
theorem C5_inv_derivations :
    p % 2^64 = 1 ∧
    inv_p = some INV ∧
    redc_script_inv = some INV ∧
    INV * neg_p_mod % 2^64 = 1 ∧
    INV = 2^64 - 1 ∧
    reference_inv = some 1 := by decide

/-- C6: the claim fails as stated: at t = minus_one_mont * minus_one_mont, which
is below p * 2^128, the three reduction embeddings do not agree: fixed_redc and
textbook_redc both return 0 while the whole-integer montgomery_reduce returns
2^108 - 1. -/
theorem C6_embeddings_disagree :
    minus_one_mont * minus_one_mont < p * 2^128 ∧
    fixed_redc (minus_one_mont * minus_one_mont) p INV
      ≠ montgomery_reduce (minus_one_mont * minus_one_mont) p INV ∧
    textbook_redc (minus_one_mont * minus_one_mont) p INV
      ≠ montgomery_reduce (minus_one_mont * minus_one_mont) p INV := by decide

/-- C6 amended: for every t < p * 2^128 the three embeddings agree as long as no
carry is dropped: textbook_redc agrees with montgomery_reduce whenever the exact
pre-subtraction value fits in 128 bits, and fixed_redc agrees whenever
additionally its round-0 masked add into t[2] does not overflow. -/
theorem C6_embeddings_agree_without_dropped_carries (t : ℕ) (h : t < p * 2^128) :
    (mr_pre t p INV < 2^128 → textbook_redc t p INV = montgomery_reduce t p INV) ∧
    (mr_pre t p INV < 2^128 → ¬ round0_overflow t →
      fixed_redc t p INV = montgomery_reduce t p INV) :=
  ⟨textbook_eq_mr t h, fixed_eq_mr t h⟩

/-- Witness for the amended C6 at t = 6, an input whose pre-subtraction value
fits in 128 bits and whose round-0 carry add does not overflow. -/
theorem C6_witness :
    textbook_redc 6 p INV = montgomery_reduce 6 p INV ∧
    fixed_redc 6 p INV = montgomery_reduce 6 p INV :=
  ⟨(C6_embeddings_agree_without_dropped_carries 6 (by decide)).1 (by decide),
   (C6_embeddings_agree_without_dropped_carries 6 (by decide)).2 (by decide) (by decide)⟩

/-- C7: converting into Montgomery form and back is the identity on [0, p): and
Montgomery-reducing the constant R yields exactly 1. -/
theorem C7_roundtrip (x : ℕ) (hx : x < p) :
    to_canonical (from_canonical x) = x ∧ to_canonical R = 1 := by
  constructor
  · have hT1 : x * R2 < p * 2^128 := by
      have h1 : x * R2 ≤ x * 2^128 := Nat.mul_le_mul_left x (by decide)
      have h2 : x * 2^128 < p * 2^128 :=
        Nat.mul_lt_mul_of_lt_of_le hx (le_refl (2^128)) (by norm_num)
      omega
    obtain ⟨hy_lt, hy_eq⟩ := mr_spec (x * R2) hT1
    have hy128 : montgomery_reduce (x * R2) p INV < p * 2^128 :=
      lt_of_lt_of_le hy_lt (Nat.le_mul_of_pos_right p (by norm_num))
    obtain ⟨hz_lt, hz_eq⟩ := mr_spec (montgomery_reduce (x * R2) p INV) hy128
    simp only [from_canonical, to_canonical]
    -- abbreviate the two reduction results
    generalize hz : montgomery_reduce (montgomery_reduce (x * R2) p INV) p INV = z
      at hz_lt hz_eq
    generalize hy : montgomery_reduce (x * R2) p INV = y at hy_lt hy_eq hz_eq
    -- z * 2^256 = x * 2^256 modulo p, then cancel 2^256
    have step1 : Nat.ModEq p (z * 2^128) y := hz_eq
    have step2 : Nat.ModEq p (z * 2^128 * 2^128) (y * 2^128) := step1.mul_right (2^128)
    have step3 : Nat.ModEq p (z * 2^256) (x * R2) := by
      have hzz : z * 2^256 = z * 2^128 * 2^128 := by ring
      rw [hzz]
      exact step2.trans hy_eq
    have hR2c : Nat.ModEq p R2 (2^256) := by decide
    have step4 : Nat.ModEq p (z * 2^256) (x * 2^256) :=
      step3.trans (hR2c.mul_left x)
    have hu : Nat.ModEq p (2^256 * 649036178862119137436285219635201) 1 := by decide
    have step5 : Nat.ModEq p (z * (2^256 * 649036178862119137436285219635201))
        (x * (2^256 * 649036178862119137436285219635201)) := by
      have h5 := step4.mul_right 649036178862119137436285219635201
      have e1 : z * 2^256 * 649036178862119137436285219635201
          = z * (2^256 * 649036178862119137436285219635201) := by ring
      have e2 : x * 2^256 * 649036178862119137436285219635201
          = x * (2^256 * 649036178862119137436285219635201) := by ring
      rw [e1, e2] at h5
      exact h5
    have hz1 : Nat.ModEq p z (z * (2^256 * 649036178862119137436285219635201)) := by
      have := (Nat.ModEq.refl z).mul hu.symm
      simpa using this
    have hx1 : Nat.ModEq p (x * (2^256 * 649036178862119137436285219635201)) x := by
      have := (Nat.ModEq.refl x).mul hu
      simpa using this
    exact ((hz1.trans step5).trans hx1).eq_of_lt_of_lt hz_lt hx
  · decide

/-- Witness for C7 at x = 123456789. -/
theorem C7_witness :
    123456789 < p ∧
    (to_canonical (from_canonical 123456789) = 123456789 ∧ to_canonical R = 1) :=
  ⟨by decide, C7_roundtrip 123456789 (by decide)⟩

/-- Nat.log2 of a power of two is the exponent. -/
theorem log2_pow (k : ℕ) : Nat.log2 (2^k) = k := by
  induction k with
  | zero =>
    unfold Nat.log2
    norm_num
  | succ k ih =>
    unfold Nat.log2
    have hge : 2 ≤ 2^(k+1) := le_trans (by norm_num : (2:ℕ) ≤ 2^1)
      (Nat.pow_le_pow_right (by norm_num) (by omega))
    rw [if_pos hge]
    have hdiv : 2^(k+1) / 2 = 2^k := by
      rw [pow_succ]
      omega
    rw [hdiv, ih]

/-- C8: the base root cpp_omega_32 is a primitive 2^32-th root of unity mod p: it
satisfies omega^(2^32) = 1 and omega^(2^31) = p - 1 modulo p, and consequently no
proper divisor d of 2^32 satisfies omega^d = 1 mod p. -/
theorem C8_omega_is_primitive_root :
    cpp_omega_32 ^ (2^32) % p = 1 ∧
    cpp_omega_32 ^ (2^31) % p = p - 1 ∧
    ∀ d, d ∣ 2^32 → cpp_omega_32 ^ d % p = 1 → d = 2^32 := by
  have h32 : cpp_omega_32 ^ (2^32) % p = 1 := by rw [← powMod_eq]; decide
  have h31 : cpp_omega_32 ^ (2^31) % p = p - 1 := by rw [← powMod_eq]; decide
  refine ⟨h32, h31, ?_⟩
  intro d hdvd hone
  obtain ⟨k, hk, hdk⟩ := (Nat.dvd_prime_pow Nat.prime_two).mp hdvd
  by_contra hne
  have hk31 : k ≤ 31 := by
    have hkne : k ≠ 32 := by
      intro hk32
      exact hne (by rw [hdk, hk32])
    omega
  have hexp : (2:ℕ)^31 = d * 2^(31 - k) := by
    rw [hdk, ← pow_add, show k + (31 - k) = 31 from by omega]
  have hcon : cpp_omega_32 ^ (2^31) % p = 1 := by
    rw [hexp, pow_mul, Nat.pow_mod, hone, one_pow]
    decide
  rw [h31] at hcon
  exact absurd hcon (by decide)

/-- Witness for C8 applied at the divisor d = 2^32. -/
theorem C8_witness :
    ((2^32 : ℕ) ∣ 2^32) ∧ cpp_omega_32 ^ (2^32) % p = 1 ∧ (2^32 : ℕ) = 2^32 :=
  ⟨dvd_refl _, C8_omega_is_primitive_root.1,
   C8_omega_is_primitive_root.2.2 (2^32) (dvd_refl _) C8_omega_is_primitive_root.1⟩

/-- C9 fails as stated: n = 1 = 2^0 and n = 2^17 are powers of two in [1, 2^32],
yet root_for returns none for both; the generated table only covers the sixteen
sizes from 2 to 65536. -/
theorem C9_root_for_rejects_in_range_powers :
    root_for 1 = none ∧ root_for (2^17) = none ∧ root_for 2 ≠ none ∧
    (1 : ℕ) = 2^0 ∧ (2^17 : ℕ) ≤ 2^32 := by decide

/-- C9 amended: root_for accepts exactly the sixteen powers of two n with
2 <= n <= 65536 = 2^16: for those it returns cpp_omega_32^(2^32 / n) mod p, and
for every other n (including 1, the powers of two above 2^16, and every
non-power of two) it returns none. -/
theorem C9_root_for_characterised (n : ℕ) :
    root_for n = if 2 ≤ n ∧ n ≤ 65536 ∧ 2 ^ Nat.log2 n = n
      then some (cpp_omega_32 ^ (2^32 / n) % p) else none := by
  by_cases hc : 2 ≤ n ∧ n ≤ 65536 ∧ 2 ^ Nat.log2 n = n
  · rw [if_pos hc]
    obtain ⟨h2, h65, hpow⟩ := hc
    obtain ⟨k, hk⟩ : ∃ k, Nat.log2 n = k := ⟨_, rfl⟩
    rw [hk] at hpow
    have hk1 : 1 ≤ k := by
      rcases k with _ | k
      · rw [pow_zero] at hpow
        omega
      · omega
    have hk16 : k ≤ 16 := by
      by_contra h17
      have h17' : 17 ≤ k := by omega
      have hle : (2:ℕ)^17 ≤ 2^k := Nat.pow_le_pow_right (by norm_num) h17'
      rw [hpow] at hle
      omega
    subst hpow
    interval_cases k <;> (rw [← powMod_eq]; decide)
  · rw [if_neg hc]
    have hnot : n ∉ sizes := by
      intro hmem
      apply hc
      simp only [sizes, List.mem_cons, List.not_mem_nil, or_false] at hmem
      rcases hmem with rfl | rfl | rfl | rfl | rfl | rfl | rfl | rfl | rfl | rfl | rfl
        | rfl | rfl | rfl | rfl | rfl
      · exact ⟨by norm_num, by norm_num, by have h := log2_pow 1; norm_num at h; rw [h]; norm_num⟩
      · exact ⟨by norm_num, by norm_num, by have h := log2_pow 2; norm_num at h; rw [h]; norm_num⟩
      · exact ⟨by norm_num, by norm_num, by have h := log2_pow 3; norm_num at h; rw [h]; norm_num⟩
      · exact ⟨by norm_num, by norm_num, by have h := log2_pow 4; norm_num at h; rw [h]; norm_num⟩
      · exact ⟨by norm_num, by norm_num, by have h := log2_pow 5; norm_num at h; rw [h]; norm_num⟩
      · exact ⟨by norm_num, by norm_num, by have h := log2_pow 6; norm_num at h; rw [h]; norm_num⟩
      · exact ⟨by norm_num, by norm_num, by have h := log2_pow 7; norm_num at h; rw [h]; norm_num⟩
      · exact ⟨by norm_num, by norm_num, by have h := log2_pow 8; norm_num at h; rw [h]; norm_num⟩
      · exact ⟨by norm_num, by norm_num, by have h := log2_pow 9; norm_num at h; rw [h]; norm_num⟩
      · exact ⟨by norm_num, by norm_num, by have h := log2_pow 10; norm_num at h; rw [h]; norm_num⟩
      · exact ⟨by norm_num, by norm_num, by have h := log2_pow 11; norm_num at h; rw [h]; norm_num⟩
      · exact ⟨by norm_num, by norm_num, by have h := log2_pow 12; norm_num at h; rw [h]; norm_num⟩
      · exact ⟨by norm_num, by norm_num, by have h := log2_pow 13; norm_num at h; rw [h]; norm_num⟩
      · exact ⟨by norm_num, by norm_num, by have h := log2_pow 14; norm_num at h; rw [h]; norm_num⟩
      · exact ⟨by norm_num, by norm_num, by have h := log2_pow 15; norm_num at h; rw [h]; norm_num⟩
      · exact ⟨by norm_num, by norm_num, by have h := log2_pow 16; norm_num at h; rw [h]; norm_num⟩
    simp only [root_for, if_neg hnot]

/-- C10: every supported table entry omega_n = omega^(2^32/n) has multiplicative
order exactly n: omega_n^n = 1 mod p and, for n > 1, omega_n^(n/2) is not 1
mod p. -/
theorem C10_root_orders (n : ℕ) (hn : n ∈ sizes) :
    omega_n n ^ n % p = 1 ∧ (1 < n → omega_n n ^ (n / 2) % p ≠ 1) := by
  simp only [sizes, List.mem_cons, List.not_mem_nil, or_false] at hn
  rcases hn with rfl | rfl | rfl | rfl | rfl | rfl | rfl | rfl | rfl | rfl | rfl
    | rfl | rfl | rfl | rfl | rfl <;>
    (simp only [← powMod_eq]; decide)

/-- Witness for C10 at n = 8. -/
theorem C10_witness :
    8 ∈ sizes ∧
    (omega_n 8 ^ 8 % p = 1 ∧ (1 < 8 → omega_n 8 ^ (8 / 2) % p ≠ 1)) :=
  ⟨by decide, C10_root_orders 8 (by decide)⟩
